import Mathlib

/-!
Shallow embedding of the go-sq-decoder core (SQ quadraphonic encoder and
decoder) together with proofs about its block framing, fixed matrix
transform, Hilbert filter design, logic steering, input validation and
channel separation metrics.

Samples are modelled as elements of a linear ordered field `K` (the Go code
uses `float64`; theorems instantiate `K := ℝ`).  Irrational constants and
functions that the Go code takes from `math` (`math.Sqrt(2)/2`, `math.Pi`,
`math.Sqrt`, `math.Log10`, `math.Exp`) are passed to the definitions as
parameters so the definitions stay computable; the theorems instantiate
them with `Real.sqrt 2 / 2`, `Real.pi`, `Real.sqrt`, and so on.  The FFT
performed inside `HilbertTransformer.ProcessBlock` is abstracted as a
block-transform parameter `H`: none of the properties proved below depends
on the numeric content of that transform, only on where its output is read.
-/

variable {K : Type*} [LinearOrderedField K]

/-- Inner per-hop loop shared by `SQDecoder.Process` (part_008 lines 109-140)
and `SQEncoder.Process` (part_007 lines 92-120).  `start = blockIdx*overlap`;
the loop runs `i = 0, 1, ...` for at most `fuel = overlap` steps, breaking as
soon as `outIdx = start+i` reaches the signal length `N`, or `inIdx = ov/4+i`
or `phaseIdx = ov/2+i` reaches the block size `bs`; otherwise it overwrites
every output channel at index `start+i` with the per-sample value `val c i`
(the matrix formulas, instantiated per direction below) and continues. -/
def sqInner {m : ℕ} (N bs ov start : ℕ) (val : Fin m → ℕ → K) :
    ℕ → ℕ → (Fin m → ℕ → K) → Fin m → ℕ → K
  | 0, _, out => out
  | fuel + 1, i, out =>
    if N ≤ start + i then out
    else if bs ≤ ov / 4 + i then out
    else if bs ≤ ov / 2 + i then out
    else
      sqInner N bs ov start val fuel (i + 1)
        (fun c j => if j = start + i then val c i else out c j)

/-- Outer hop loop shared by both `Process` implementations (part_008 lines
84-141, part_007 lines 68-121): hop `b` starts at `b*overlap` and runs the
inner loop with `fuel = overlap` from `i = 0`.  `valAt start` packages the
per-sample value computed by the loop body for the hop starting at `start`
(block extraction, Hilbert transform and matrix combination). -/
def sqBlocks {m : ℕ} (ov N bs : ℕ) (valAt : ℕ → Fin m → ℕ → K) :
    ℕ → ℕ → (Fin m → ℕ → K) → Fin m → ℕ → K
  | 0, _, out => out
  | fuel + 1, b, out =>
    sqBlocks ov N bs valAt fuel (b + 1)
      (sqInner N bs ov (b * ov) (valAt (b * ov)) ov 0 out)

/-- Zero-padded input block of one hop (part_008 lines 88-98, part_007 lines
71-84): a buffer of length `bs` holding the input samples from `start`
onwards, zero past the true signal length `N` (and zero outside the buffer,
which the loops never read). -/
def hopBlock (bs N start : ℕ) (x : List K) : ℕ → K := fun i =>
  if i < bs then (if start + i < N then x.getD (start + i) 0 else 0) else 0

/-- SQ decode matrix applied to the aligned direct and quadrature windows
(part_008 lines 125-139): `lt`/`rt` are read from the unfiltered block at
`ov/4 + i`, `hlt`/`hrt` from the Hilbert-filtered block at `ov/2 + i`. -/
def decVal (c : K) (ov : ℕ) (bL bR psL psR : ℕ → K) (ch : Fin 4) (i : ℕ) : K :=
  let lt := bL (ov / 4 + i)
  let rt := bR (ov / 4 + i)
  let hlt := psL (ov / 2 + i)
  let hrt := psR (ov / 2 + i)
  if ch = 0 then lt
  else if ch = 1 then rt
  else if ch = 2 then c * hlt - c * rt
  else c * lt - c * hrt

/-- Loop body of one decoder hop starting at `start`: build the two
zero-padded blocks, run the Hilbert transform `H` on each, and combine via
the decode matrix (part_008 lines 88-139). -/
def decValAt (c : K) (bs ov : ℕ) (H : (ℕ → K) → ℕ → K) (L R : List K)
    (start : ℕ) : Fin 4 → ℕ → K :=
  decVal c ov (hopBlock bs L.length start L) (hopBlock bs L.length start R)
    (H (hopBlock bs L.length start L)) (H (hopBlock bs L.length start R))

/-- Decoder `Process` core loop (part_008 lines 74-141) started from an
arbitrary initial output buffer: `numBlocks = ceil(N/ov)` hops from hop 0. -/
def decProcessFrom (c : K) (bs ov : ℕ) (H : (ℕ → K) → ℕ → K) (L R : List K)
    (out : Fin 4 → ℕ → K) : Fin 4 → ℕ → K :=
  sqBlocks ov L.length bs (decValAt c bs ov H L R)
    ((L.length + ov - 1) / ov) 0 out

/-- Decoder `Process` core loop with the freshly-allocated all-zero output of
the Go code (part_008 lines 77-81). -/
def decProcessCore (c : K) (bs ov : ℕ) (H : (ℕ → K) → ℕ → K)
    (L R : List K) : Fin 4 → ℕ → K :=
  decProcessFrom c bs ov H L R (fun _ _ => 0)

/-- SQ encode matrix applied to the aligned direct and quadrature windows
(part_007 lines 108-119). -/
def encVal (c : K) (ov : ℕ) (bLF bRF bLB bRB psLB psRB : ℕ → K)
    (ch : Fin 2) (i : ℕ) : K :=
  let lf := bLF (ov / 4 + i)
  let rf := bRF (ov / 4 + i)
  let lb := bLB (ov / 4 + i)
  let rb := bRB (ov / 4 + i)
  let hlb := psLB (ov / 2 + i)
  let hrb := psRB (ov / 2 + i)
  if ch = 0 then lf + c * rb - c * hlb
  else rf - c * lb + c * hrb

/-- Loop body of one encoder hop starting at `start` (part_007 lines
71-119): the Hilbert transform is applied to the two back channels only. -/
def encValAt (c : K) (bs ov : ℕ) (H : (ℕ → K) → ℕ → K)
    (LF RF LB RB : List K) (start : ℕ) : Fin 2 → ℕ → K :=
  encVal c ov (hopBlock bs LF.length start LF) (hopBlock bs LF.length start RF)
    (hopBlock bs LF.length start LB) (hopBlock bs LF.length start RB)
    (H (hopBlock bs LF.length start LB)) (H (hopBlock bs LF.length start RB))

/-- Encoder `Process` core loop (part_007 lines 61-121) with the fresh
all-zero output buffer. -/
def encProcessCore (c : K) (bs ov : ℕ) (H : (ℕ → K) → ℕ → K)
    (LF RF LB RB : List K) : Fin 2 → ℕ → K :=
  sqBlocks ov LF.length bs (encValAt c bs ov H LF RF LB RB)
    ((LF.length + ov - 1) / ov) 0 (fun _ _ => 0)

/-- The two recoverable validation errors returned by the encoder and
decoder `Process` entry points (part_008 lines 64-72, part_007 lines 49-59).
The Go code returns descriptive error values; the two distinct constructors
model the two distinct messages. -/
inductive SQError where
  | wrongChannels : SQError
  | lengthMismatch : SQError
deriving DecidableEq

/-- Decoder `Process` entry point (part_008 lines 64-144).  The pair mirrors
Go's two return values: on validation failure `(nil, err)`, on success
`(output, nil)`. -/
def decProcess (c : K) (bs ov : ℕ) (H : (ℕ → K) → ℕ → K)
    (input : List (List K)) : Option (Fin 4 → ℕ → K) × Option SQError :=
  if input.length ≠ 2 then (none, some SQError.wrongChannels)
  else if (input.getD 1 []).length ≠ (input.getD 0 []).length then
    (none, some SQError.lengthMismatch)
  else
    (some (decProcessCore c bs ov H (input.getD 0 []) (input.getD 1 [])), none)

/-- Encoder `Process` entry point (part_007 lines 49-124). -/
def encProcess (c : K) (bs ov : ℕ) (H : (ℕ → K) → ℕ → K)
    (input : List (List K)) : Option (Fin 2 → ℕ → K) × Option SQError :=
  if input.length ≠ 4 then (none, some SQError.wrongChannels)
  else if (input.getD 1 []).length ≠ (input.getD 0 []).length ∨
      (input.getD 2 []).length ≠ (input.getD 0 []).length ∨
      (input.getD 3 []).length ≠ (input.getD 0 []).length then
    (none, some SQError.lengthMismatch)
  else
    (some (encProcessCore c bs ov H (input.getD 0 []) (input.getD 1 [])
      (input.getD 2 []) (input.getD 3 [])), none)

/-- What the spec's Block Framer section (spec.md section 4.3) prescribes for
the decode direction, written from the spec's words: hop `b = j / overlap`
covers output positions `[b*overlap, b*overlap + overlap)` truncated only at
the true signal length; the direct window reads the unfiltered zero-padded
block at `inputOffset + i = ov/4 + i`, the quadrature window reads the
Hilbert-filtered block at `outputOffset + i = ov/2 + i`, and the two aligned
samples are combined by the decode matrix of section 4.4. -/
def framerSpecDecode (c : K) (bs ov : ℕ) (H : (ℕ → K) → ℕ → K)
    (L R : List K) (ch : Fin 4) (j : ℕ) : K :=
  if j < L.length then
    let b := j / ov
    let i := j % ov
    let lt := hopBlock bs L.length (b * ov) L (ov / 4 + i)
    let rt := hopBlock bs L.length (b * ov) R (ov / 4 + i)
    let hlt := H (hopBlock bs L.length (b * ov) L) (ov / 2 + i)
    let hrt := H (hopBlock bs L.length (b * ov) R) (ov / 2 + i)
    if ch = 0 then lt
    else if ch = 1 then rt
    else if ch = 2 then c * hlt - c * rt
    else c * lt - c * hrt
  else 0

/-- Fixed guard constant of the logic steering stage
(internal/decoder/logic.go line 5: `logicEpsilon = 1e-12`). -/
def logicEpsilon (K : Type*) [LinearOrderedField K] : K := 1 / 1000000000000

/-- CBS-style logic steering parameters
(internal/decoder/logic.go lines 8-15). -/
structure LogicSteeringConfig (K : Type*) where
  Enabled : Bool
  AttackTime : K
  ReleaseTime : K
  DominanceThreshold : K
  MaxBoost : K
  MinGain : K

/-- Conservative defaults (internal/decoder/logic.go lines 18-27). -/
def DefaultLogicSteeringConfig (K : Type*) [LinearOrderedField K] :
    LogicSteeringConfig K :=
  { Enabled := false
    AttackTime := 1 / 100
    ReleaseTime := 1 / 5
    DominanceThreshold := 11 / 20
    MaxBoost := 8 / 5
    MinGain := 2 / 5 }

/-- Attack/release coefficient derivation
(internal/decoder/logic.go lines 29-34): `exp(-1/(seconds*sampleRate))`, or
`0` for non-positive time or sample rate.  `expK` abstracts `math.Exp`. -/
def timeToCoeff (expK : K → K) (seconds : K) (sampleRate : ℤ) : K :=
  if seconds ≤ 0 ∨ sampleRate ≤ 0 then 0
  else expK (-(1 / (seconds * (sampleRate : K))))

/-- The per-decoder mutable steering state touched by `applyLogicSteering`:
the four energy envelopes plus the derived coefficients and configuration
(fields `logicEnv`, `attackCoeff`, `releaseCoeff`, `logicConfig` of the
decoder struct referenced throughout internal/decoder/logic.go). -/
structure SteerState (K : Type*) where
  logicEnv : Fin 4 → K
  attackCoeff : K
  releaseCoeff : K
  logicConfig : LogicSteeringConfig K

/-- Instantaneous squared energies of the four input samples
(internal/decoder/logic.go line 37). -/
def steerEnergies (lf rf lb rb : K) : Fin 4 → K := fun i =>
  if i = 0 then lf * lf
  else if i = 1 then rf * rf
  else if i = 2 then lb * lb
  else rb * rb

/-- Asymmetric one-pole envelope update (internal/decoder/logic.go lines
38-46): attack coefficient when the instantaneous energy exceeds the
envelope, release coefficient otherwise. -/
def updateEnvelopes (d : SteerState K) (lf rf lb rb : K) : Fin 4 → K :=
  fun i =>
    let env := d.logicEnv i
    let energy := steerEnergies lf rf lb rb i
    if env < energy then d.attackCoeff * env + (1 - d.attackCoeff) * energy
    else d.releaseCoeff * env + (1 - d.releaseCoeff) * energy

/-- Dominant channel search (internal/decoder/logic.go lines 48-56): running
arg-max over the four envelopes from index 0, strict comparison, so ties are
broken toward the lowest index.  Returns `(maxIdx, maxVal)`. -/
def steerMax (env : Fin 4 → K) : Fin 4 × K :=
  let s1 := if env 0 < env 1 then ((1 : Fin 4), env 1) else ((0 : Fin 4), env 0)
  let s2 := if s1.2 < env 2 then ((2 : Fin 4), env 2) else s1
  if s2.2 < env 3 then ((3 : Fin 4), env 3) else s2

/-- Dominance denominator (internal/decoder/logic.go line 50): the sum of
the four updated envelopes plus `logicEpsilon`. -/
def steerSum (env : Fin 4 → K) : K :=
  env 0 + env 1 + env 2 + env 3 + logicEpsilon K

/-- Steering intensity (internal/decoder/logic.go lines 63-68):
`(dominance - threshold)/(1 - threshold)` clamped to `[0, 1]`. -/
def steerIntensity (cfg : LogicSteeringConfig K) (dominance : K) : K :=
  let raw := (dominance - cfg.DominanceThreshold) / (1 - cfg.DominanceThreshold)
  if raw < 0 then 0 else if 1 < raw then 1 else raw

/-- Per-channel gains (internal/decoder/logic.go lines 70-74): boost on the
dominant channel, cut on the other three. -/
def steerGains (cfg : LogicSteeringConfig K) (maxIdx : Fin 4)
    (intensity : K) : Fin 4 → K := fun i =>
  if i = maxIdx then 1 + (cfg.MaxBoost - 1) * intensity
  else 1 - (1 - cfg.MinGain) * intensity

/-- Gain application of the active branch (internal/decoder/logic.go lines
70-81): the four input samples multiplied by the boost/cut gains derived
from the dominance of the updated envelopes. -/
def steerGained (d : SteerState K) (lf rf lb rb : K) : K × K × K × K :=
  let env := updateEnvelopes d lf rf lb rb
  let m := steerMax env
  let intensity := steerIntensity d.logicConfig (m.2 / steerSum env)
  let gains := steerGains d.logicConfig m.1 intensity
  (lf * gains 0, rf * gains 1, lb * gains 2, rb * gains 3)

/-- `preEnergy` of the renormalization step (internal/decoder/logic.go line
83): sum of the squared input samples. -/
def steerPreEnergy (lf rf lb rb : K) : K :=
  steerEnergies lf rf lb rb 0 + steerEnergies lf rf lb rb 1 +
    steerEnergies lf rf lb rb 2 + steerEnergies lf rf lb rb 3

/-- `postEnergy` of the renormalization step (internal/decoder/logic.go line
84): sum of the squared gain-applied samples. -/
def steerPostEnergy (d : SteerState K) (lf rf lb rb : K) : K :=
  let o := steerGained d lf rf lb rb
  o.1 * o.1 + o.2.1 * o.2.1 + o.2.2.1 * o.2.2.1 + o.2.2.2 * o.2.2.2

/-- The logic steering stage (internal/decoder/logic.go lines 36-94).  The
Go method mutates the receiver's envelopes and returns four samples; here
the updated state is returned alongside the output quadruple.  `sqrtK`
abstracts `math.Sqrt`. -/
def applyLogicSteering (sqrtK : K → K) (d : SteerState K)
    (lf rf lb rb : K) : SteerState K × (K × K × K × K) :=
  if (steerMax (updateEnvelopes d lf rf lb rb)).2 /
      steerSum (updateEnvelopes d lf rf lb rb) ≤
      d.logicConfig.DominanceThreshold then
    ({ d with logicEnv := updateEnvelopes d lf rf lb rb }, (lf, rf, lb, rb))
  else if logicEpsilon K < steerPreEnergy lf rf lb rb ∧
      logicEpsilon K < steerPostEnergy d lf rf lb rb then
    ({ d with logicEnv := updateEnvelopes d lf rf lb rb },
      ((steerGained d lf rf lb rb).1 *
        sqrtK (steerPreEnergy lf rf lb rb / steerPostEnergy d lf rf lb rb),
       (steerGained d lf rf lb rb).2.1 *
        sqrtK (steerPreEnergy lf rf lb rb / steerPostEnergy d lf rf lb rb),
       (steerGained d lf rf lb rb).2.2.1 *
        sqrtK (steerPreEnergy lf rf lb rb / steerPostEnergy d lf rf lb rb),
       (steerGained d lf rf lb rb).2.2.2 *
        sqrtK (steerPreEnergy lf rf lb rb / steerPostEnergy d lf rf lb rb)))
  else
    ({ d with logicEnv := updateEnvelopes d lf rf lb rb },
      steerGained d lf rf lb rb)

/-- Write loop of the raw (pre-window) Hilbert impulse response
(pkg/sqmath/hilbert.go lines 67-73): for `i` running over `[0, center)`,
odd `i` writes `2/(pi*i)` at `center+i` and `-2/(pi*i)` at `center-i`;
even `i` writes nothing.  `piK` abstracts `math.Pi`. -/
def impulseLoop (piK : K) (center : ℕ) :
    ℕ → ℕ → (ℕ → K) → ℕ → K
  | 0, _, h => h
  | fuel + 1, i, h =>
    if i % 2 = 1 then
      impulseLoop piK center fuel (i + 1) (fun j =>
        if j = center + i then 2 / (piK * (i : K))
        else if j = center - i then -(2 / (piK * (i : K)))
        else h j)
    else
      impulseLoop piK center fuel (i + 1) h

/-- The raw impulse response built by `makeFilter` before windowing
(pkg/sqmath/hilbert.go lines 62-73): an all-zero buffer written by
`impulseLoop` with `center = overlap/2`.  (The buffer has length
`blockSize` in Go; indices past the written footprint stay zero.) -/
def mkImpulse (piK : K) (ov : ℕ) : ℕ → K :=
  impulseLoop piK (ov / 2) (ov / 2) 0 (fun _ => 0)

/-- Complex multiplication on pairs, for the bin-wise product inside
`ProcessBlock` (pkg/sqmath/hilbert.go lines 186-188). -/
def cmul (a b : K × K) : K × K :=
  (a.1 * b.1 - a.2 * b.2, a.1 * b.2 + a.2 * b.1)

/-- `HilbertTransformer.ProcessBlock` (pkg/sqmath/hilbert.go lines 168-204).
The Go method panics when the input length differs from the block size;
the panic is modelled as `none`.  `F` and `Finv` abstract the forward and
inverse FFT of the `algofft` plan; everything else — the length guard, the
real-to-complex conversion, the bin-wise multiplication by the transfer
function, and the real part scaled by `1/blockSize` — is embedded
directly. -/
def processBlock (bs : ℕ) (F Finv : List (K × K) → List (K × K))
    (transferFn : List (K × K)) (x : List K) : Option (List K) :=
  if x.length ≠ bs then none
  else
    let inputComplex := (List.range bs).map (fun i => (x.getD i 0, (0 : K)))
    let freqDomain := F inputComplex
    let shaped := (List.range bs).map (fun i =>
      cmul (freqDomain.getD i (0, 0)) (transferFn.getD i (0, 0)))
    let timeDomain := Finv shaped
    some ((List.range bs).map (fun i =>
      (timeDomain.getD i (0, 0)).1 * (1 / (bs : K))))

/-- Fixed guard constant of the separation metrics
(part_006 line 9: `separationEpsilon = 1e-12`). -/
def separationEpsilon (K : Type*) [LinearOrderedField K] : K :=
  1 / 1000000000000

/-- Leak aggregation mode (part_006 lines 18-23).  The Go type is a string;
any value other than `"avg"` selects the max behaviour, so the two
constructors cover all cases. -/
inductive LeakMode where
  | max : LeakMode
  | avg : LeakMode
deriving DecidableEq

/-- Options controlling separation computation (part_006 lines 26-31). -/
structure SeparationOptions (K : Type*) where
  leakMode : LeakMode
  sampleRate : ℤ
  fMin : K
  fMax : K

/-- Result of a separation measurement (part_006 lines 12-16).  The Go field
`SeparationDB` is a float64 that can be `math.Inf(1)`; it is modelled in
`WithTop K` with `⊤` standing for plus infinity. -/
structure SeparationResult (K : Type*) where
  TargetRMS : K
  LeakRMS : K
  SeparationDB : WithTop K

/-- Plain root-mean-square (part_006 lines 107-116).  `sqrtK` abstracts
`math.Sqrt`. -/
def rms (sqrtK : K → K) (samples : List K) : K :=
  if samples.length = 0 then 0
  else sqrtK ((samples.foldl (fun acc v => acc + v * v) 0) /
    (samples.length : K))

/-- RMS with optional band restriction (part_006 lines 97-105).  The
band-restricted branch runs a forward FFT over the whole signal; that
branch is abstracted as the parameter `bandF` (it is never taken when both
band edges are non-positive). -/
def rmsWithOptions (sqrtK : K → K)
    (bandF : List K → SeparationOptions K → K) (samples : List K)
    (options : SeparationOptions K) : K :=
  if options.fMin ≤ 0 ∧ options.fMax ≤ 0 then rms sqrtK samples
  else if options.sampleRate ≤ 0 then 0
  else bandF samples options

/-- Separation in dB (part_006 lines 87-95): `20*log10(target/leak)` when
both RMS values exceed `separationEpsilon`, plus infinity when only the
target does, `0` otherwise.  `log10K` abstracts `math.Log10`. -/
def separationDB (log10K : K → K) (targetRMS leakRMS : K) : WithTop K :=
  if separationEpsilon K < leakRMS ∧ separationEpsilon K < targetRMS then
    ((20 * log10K (targetRMS / leakRMS) : K) : WithTop K)
  else if separationEpsilon K < targetRMS ∧ leakRMS ≤ separationEpsilon K then
    ⊤
  else ((0 : K) : WithTop K)

/-- One step of the leak accumulation loop of `ChannelSeparation`
(part_006 lines 42-56): skip the target channel, otherwise fold the leak
channel's RMS into the running `(leakRMS, leakCount)` accumulator according
to the leak mode. -/
def leakStep (sqrtK : K → K) (bandF : List K → SeparationOptions K → K)
    (decoded : List (List K)) (target : ℕ) (options : SeparationOptions K)
    (acc : K × ℕ) (ch : ℕ) : K × ℕ :=
  if ch = target then acc
  else
    let r := rmsWithOptions sqrtK bandF (decoded.getD ch []) options
    match options.leakMode with
    | LeakMode.avg => (acc.1 + r, acc.2 + 1)
    | LeakMode.max => (if acc.1 < r then r else acc.1, acc.2)

/-- `ChannelSeparation` (part_006 lines 34-66): RMS of the target channel
against the max (or average) RMS of every other channel. -/
def ChannelSeparation (sqrtK log10K : K → K)
    (bandF : List K → SeparationOptions K → K) (decoded : List (List K))
    (target : ℕ) (options : SeparationOptions K) : SeparationResult K :=
  if decoded.length ≤ target then ⟨0, 0, ((0 : K) : WithTop K)⟩
  else
    let targetRMS := rmsWithOptions sqrtK bandF (decoded.getD target []) options
    let acc := (List.range decoded.length).foldl
      (leakStep sqrtK bandF decoded target options) ((0 : K), (0 : ℕ))
    let leakRMS :=
      if options.leakMode = LeakMode.avg ∧ 0 < acc.2 then acc.1 / (acc.2 : K)
      else acc.1
    ⟨targetRMS, leakRMS, separationDB log10K targetRMS leakRMS⟩

/-- Characterization of the inner hop loop: starting at iteration `i` with
`fuel` steps left, index `j` ends up holding `val c (j - start)` exactly when
`j` lies in the window `[start+i, start+i+fuel)` and none of the three break
conditions fires at or before `j - start`; every other index keeps its
previous content.  (The three break conditions are monotone in the loop
counter, so the break-on-first-failure loop writes exactly the indices whose
own conditions hold.) -/
lemma sqInner_apply {m : ℕ} (N bs ov start : ℕ) (val : Fin m → ℕ → K) :
    ∀ (fuel i : ℕ) (out : Fin m → ℕ → K) (c : Fin m) (j : ℕ),
      sqInner N bs ov start val fuel i out c j =
        if start + i ≤ j ∧ j < start + i + fuel ∧ j < N ∧
            ov / 4 + (j - start) < bs ∧ ov / 2 + (j - start) < bs
        then val c (j - start) else out c j := by
  intro fuel
  induction fuel with
  | zero =>
    intro i out c j
    rw [sqInner, if_neg]
    omega
  | succ fuel ih =>
    intro i out c j
    rw [sqInner]
    by_cases hA : N ≤ start + i
    · rw [if_pos hA, if_neg]
      omega
    · rw [if_neg hA]
      by_cases hB : bs ≤ ov / 4 + i
      · rw [if_pos hB, if_neg]
        omega
      · rw [if_neg hB]
        by_cases hC : bs ≤ ov / 2 + i
        · rw [if_pos hC, if_neg]
          omega
        · rw [if_neg hC, ih]
          by_cases hj : j = start + i
          · have hjs : j - start = i := by omega
            rw [if_neg (by omega), if_pos hj, if_pos (by omega), hjs]
          · by_cases hcond : start + i ≤ j ∧ j < start + i + (fuel + 1) ∧
                j < N ∧ ov / 4 + (j - start) < bs ∧ ov / 2 + (j - start) < bs
            · rw [if_pos (by omega), if_pos hcond]
            · rw [if_neg (by omega), if_neg hj, if_neg hcond]

/-- Characterization of the hop loop: running hops `b, b+1, ...` for `fuel`
hops, index `j` holds the hop value of the unique hop `j / ov` containing it
exactly when that hop is among the ones run and the three per-sample
conditions hold at `j`; all other indices keep their previous content.  In
particular distinct hops write disjoint index ranges. -/
lemma sqBlocks_apply {m : ℕ} (ov N bs : ℕ) (valAt : ℕ → Fin m → ℕ → K)
    (hov : 0 < ov) :
    ∀ (fuel b : ℕ) (out : Fin m → ℕ → K) (c : Fin m) (j : ℕ),
      sqBlocks ov N bs valAt fuel b out c j =
        if b * ov ≤ j ∧ j < (b + fuel) * ov ∧ j < N ∧
            ov / 4 + j % ov < bs ∧ ov / 2 + j % ov < bs
        then valAt (j / ov * ov) c (j % ov) else out c j := by
  intro fuel
  induction fuel with
  | zero =>
    intro b out c j
    rw [sqBlocks, if_neg]
    simp only [Nat.add_zero]
    rintro ⟨h1, h2, -⟩
    omega
  | succ fuel ih =>
    intro b out c j
    rw [sqBlocks, ih, sqInner_apply]
    simp only [show (b + (fuel + 1)) * ov = b * ov + ov + fuel * ov by ring,
      show (b + 1 + fuel) * ov = b * ov + ov + fuel * ov by ring,
      show (b + 1) * ov = b * ov + ov by ring, Nat.add_zero]
    by_cases hin : b * ov ≤ j ∧ j < b * ov + ov
    · -- j lies in hop b's index range; hops b+1... never touch it
      have hj : j = ov * b + (j - b * ov) := by
        rw [Nat.mul_comm]
        omega
      have hdiv : j / ov = b := by
        conv_lhs => rw [hj]
        rw [Nat.mul_add_div hov, Nat.div_eq_of_lt (by omega), Nat.add_zero]
      have hmod : j % ov = j - b * ov := by
        conv_lhs => rw [hj]
        rw [Nat.mul_add_mod, Nat.mod_eq_of_lt (by omega)]
      rw [if_neg (by omega)]
      by_cases hw : j < N ∧ ov / 4 + (j - b * ov) < bs ∧
          ov / 2 + (j - b * ov) < bs
      · rw [if_pos (by omega), if_pos (by omega), hdiv, hmod]
      · rw [if_neg (by omega), if_neg (by omega)]
    · -- j is outside hop b's range: the inner loop leaves it alone
      by_cases hrest : b * ov + ov ≤ j ∧ j < b * ov + ov + fuel * ov ∧
          j < N ∧ ov / 4 + j % ov < bs ∧ ov / 2 + j % ov < bs
      · rw [if_pos hrest, if_pos (by omega)]
      · rw [if_neg hrest, if_neg (by omega), if_neg (by omega)]

/-- Characterization of the impulse write loop: provided the loop bound
stays within `center` (as it does, the loop runs over `[0, center)`), index
`j` ends up holding `2/(pi*k)` when `j = center + k` for some odd `k` among
the iterations performed, `-(2/(pi*k))` when `j = center - k`, and its
initial content otherwise.  The two write families never collide because
every written `k` is odd, hence nonzero. -/
lemma impulseLoop_apply (piK : K) (center : ℕ) :
    ∀ (fuel i : ℕ) (h : ℕ → K) (j : ℕ), i + fuel ≤ center →
      impulseLoop piK center fuel i h j =
        if i ≤ j - center ∧ j - center < i + fuel ∧ (j - center) % 2 = 1 ∧
            center ≤ j
        then 2 / (piK * ((j - center : ℕ) : K))
        else if i ≤ center - j ∧ center - j < i + fuel ∧
            (center - j) % 2 = 1 ∧ j ≤ center
        then -(2 / (piK * ((center - j : ℕ) : K)))
        else h j := by
  intro fuel
  induction fuel with
  | zero =>
    intro i h j hle
    rw [impulseLoop, if_neg (by omega), if_neg (by omega)]
  | succ fuel ih =>
    intro i h j hle
    rw [impulseLoop]
    by_cases hodd : i % 2 = 1
    · rw [if_pos hodd, ih _ _ _ (by omega)]
      by_cases hj1 : j = center + i
      · have hjc : j - center = i := by omega
        rw [if_neg (by omega), if_neg (by omega), if_pos hj1,
          if_pos (by omega), hjc]
      · by_cases hj2 : j = center - i
        · have hcj : center - j = i := by omega
          have hjc0 : (j - center) % 2 = 0 := by omega
          rw [if_neg (by omega), if_neg (by omega), if_neg hj1, if_pos hj2,
            if_neg (by omega), if_pos (by omega), hcj]
        · by_cases hC1 : i ≤ j - center ∧ j - center < i + (fuel + 1) ∧
              (j - center) % 2 = 1 ∧ center ≤ j
          · rw [if_pos (by omega), if_pos hC1]
          · rw [if_neg (by omega)]
            by_cases hC2 : i ≤ center - j ∧ center - j < i + (fuel + 1) ∧
                (center - j) % 2 = 1 ∧ j ≤ center
            · rw [if_pos (by omega), if_neg hC1, if_pos hC2]
            · rw [if_neg (by omega), if_neg hj1, if_neg hj2, if_neg hC1,
                if_neg hC2]
    · rw [if_neg hodd, ih _ _ _ (by omega)]
      by_cases hC1 : i ≤ j - center ∧ j - center < i + (fuel + 1) ∧
          (j - center) % 2 = 1 ∧ center ≤ j
      · rw [if_pos (by omega), if_pos hC1]
      · rw [if_neg (by omega)]
        by_cases hC2 : i ≤ center - j ∧ center - j < i + (fuel + 1) ∧
            (center - j) % 2 = 1 ∧ j ≤ center
        · rw [if_pos (by omega), if_neg hC1, if_pos hC2]
        · rw [if_neg (by omega), if_neg hC1, if_neg hC2]

/-- The ceiling hop count `(N + ov - 1) / ov` runs far enough to cover every
index below `N`: the core loops write index `j < N` exactly when the two
block-size conditions hold at `j`, and leave every other index at its
initial content. -/
lemma sqBlocks_ceil_apply {m : ℕ} (ov N bs : ℕ) (valAt : ℕ → Fin m → ℕ → K)
    (hov : 0 < ov) (out : Fin m → ℕ → K) (c : Fin m) (j : ℕ) :
    sqBlocks ov N bs valAt ((N + ov - 1) / ov) 0 out c j =
      if j < N ∧ ov / 4 + j % ov < bs ∧ ov / 2 + j % ov < bs
      then valAt (j / ov * ov) c (j % ov) else out c j := by
  rw [sqBlocks_apply ov N bs valAt hov]
  simp only [Nat.zero_mul, Nat.zero_add]
  by_cases hj : j < N
  · have hle : N ≤ (N + ov - 1) / ov * ov := by
      rcases Nat.eq_zero_or_pos N with h0 | h0
      · omega
      · have hN : N + ov - 1 = (N - 1) + ov := by omega
        rw [hN, Nat.add_div_right _ hov, Nat.succ_mul]
        have h1 := Nat.div_add_mod (N - 1) ov
        have h2 : (N - 1) % ov < ov := Nat.mod_lt _ hov
        have h4 : ov * ((N - 1) / ov) = (N - 1) / ov * ov := Nat.mul_comm _ _
        omega
    by_cases hw : ov / 4 + j % ov < bs ∧ ov / 2 + j % ov < bs
    · rw [if_pos (by omega), if_pos (by omega)]
    · rw [if_neg (by omega), if_neg (by omega)]
  · rw [if_neg (by omega), if_neg (by omega)]

/-- Pointwise characterization of the decoder core loop from an arbitrary
initial output buffer. -/
lemma decProcessFrom_apply (c : K) (bs ov : ℕ) (H : (ℕ → K) → ℕ → K)
    (L R : List K) (out : Fin 4 → ℕ → K) (ch : Fin 4) (j : ℕ)
    (hov : 0 < ov) :
    decProcessFrom c bs ov H L R out ch j =
      if j < L.length ∧ ov / 4 + j % ov < bs ∧ ov / 2 + j % ov < bs
      then decValAt c bs ov H L R (j / ov * ov) ch (j % ov)
      else out ch j := by
  rw [decProcessFrom, sqBlocks_ceil_apply _ _ _ _ hov]

/-- Pointwise characterization of the encoder core loop. -/
lemma encProcessCore_apply (c : K) (bs ov : ℕ) (H : (ℕ → K) → ℕ → K)
    (LF RF LB RB : List K) (ch : Fin 2) (j : ℕ) (hov : 0 < ov) :
    encProcessCore c bs ov H LF RF LB RB ch j =
      if j < LF.length ∧ ov / 4 + j % ov < bs ∧ ov / 2 + j % ov < bs
      then encValAt c bs ov H LF RF LB RB (j / ov * ov) ch (j % ov)
      else 0 := by
  rw [encProcessCore, sqBlocks_ceil_apply _ _ _ _ hov]

/-- Reading a `List.ofFn` with the in-bounds default accessor. -/
lemma getD_ofFn {α : Type*} {n : ℕ} (f : Fin n → α) (d : α) (m : ℕ)
    (hm : m < n) : (List.ofFn f).getD m d = f ⟨m, hm⟩ := by
  rw [List.getD_eq_getElem?_getD, List.getElem?_ofFn]
  simp [List.ofFnNthVal, hm]

/-- C1: with `c = sqrt 2 / 2`, the decode Process writes, at every output
index `j` that passes the loop guards, `LF = lt`, `RF = rt`,
`LB = c*H(lt) - c*rt`, `RB = c*lt - c*H(rt)`, where the direct samples are
read from the unfiltered zero-padded block of hop `j/ov` at offset
`ov/4 + j%ov` and the quadrature samples from the Hilbert-filtered block at
offset `ov/2 + j%ov`; and the encode Process likewise writes
`LT = lf + c*rb - c*H(lb)` and `RT = rf - c*lb + c*H(rb)`. -/
theorem claim_C1_matrix (bs ov : ℕ) (H : (ℕ → ℝ) → ℕ → ℝ)
    (L R LF RF LB RB : List ℝ) (j k : ℕ) (hov : 0 < ov)
    (hj : j < L.length) (hj1 : ov / 4 + j % ov < bs)
    (hj2 : ov / 2 + j % ov < bs)
    (hk : k < LF.length) (hk1 : ov / 4 + k % ov < bs)
    (hk2 : ov / 2 + k % ov < bs) :
    (decProcessCore (Real.sqrt 2 / 2) bs ov H L R 0 j =
      hopBlock bs L.length (j / ov * ov) L (ov / 4 + j % ov) ∧
     decProcessCore (Real.sqrt 2 / 2) bs ov H L R 1 j =
      hopBlock bs L.length (j / ov * ov) R (ov / 4 + j % ov) ∧
     decProcessCore (Real.sqrt 2 / 2) bs ov H L R 2 j =
      Real.sqrt 2 / 2 * H (hopBlock bs L.length (j / ov * ov) L)
          (ov / 2 + j % ov) -
        Real.sqrt 2 / 2 * hopBlock bs L.length (j / ov * ov) R
          (ov / 4 + j % ov) ∧
     decProcessCore (Real.sqrt 2 / 2) bs ov H L R 3 j =
      Real.sqrt 2 / 2 * hopBlock bs L.length (j / ov * ov) L
          (ov / 4 + j % ov) -
        Real.sqrt 2 / 2 * H (hopBlock bs L.length (j / ov * ov) R)
          (ov / 2 + j % ov)) ∧
    (encProcessCore (Real.sqrt 2 / 2) bs ov H LF RF LB RB 0 k =
      hopBlock bs LF.length (k / ov * ov) LF (ov / 4 + k % ov) +
        Real.sqrt 2 / 2 * hopBlock bs LF.length (k / ov * ov) RB
          (ov / 4 + k % ov) -
        Real.sqrt 2 / 2 * H (hopBlock bs LF.length (k / ov * ov) LB)
          (ov / 2 + k % ov) ∧
     encProcessCore (Real.sqrt 2 / 2) bs ov H LF RF LB RB 1 k =
      hopBlock bs LF.length (k / ov * ov) RF (ov / 4 + k % ov) -
        Real.sqrt 2 / 2 * hopBlock bs LF.length (k / ov * ov) LB
          (ov / 4 + k % ov) +
        Real.sqrt 2 / 2 * H (hopBlock bs LF.length (k / ov * ov) RB)
          (ov / 2 + k % ov)) := by
  constructor
  · refine ⟨?_, ?_, ?_, ?_⟩ <;>
    · rw [decProcessCore, decProcessFrom_apply _ _ _ _ _ _ _ _ _ hov,
        if_pos ⟨hj, hj1, hj2⟩]
      simp [decValAt, decVal]
  · constructor <;>
    · rw [encProcessCore_apply _ _ _ _ _ _ _ _ _ _ hov,
        if_pos ⟨hk, hk1, hk2⟩]
      simp [encValAt, encVal]

/-- C1 witness: the matrix identities at a concrete configuration and
input. -/
theorem claim_C1_matrix_witness :
    decProcessCore (Real.sqrt 2 / 2) 4 2 (fun f => f) [1] [2] 0 0 =
      hopBlock 4 1 0 [(1 : ℝ)] (2 / 4 + 0 % 2) ∧
    encProcessCore (Real.sqrt 2 / 2) 4 2 (fun f => f) [1] [2] [3] [4] 0 0 =
      hopBlock 4 1 0 [(1 : ℝ)] (2 / 4 + 0 % 2) +
        Real.sqrt 2 / 2 * hopBlock 4 1 0 [(4 : ℝ)] (2 / 4 + 0 % 2) -
        Real.sqrt 2 / 2 * (fun f => f) (hopBlock 4 1 0 [(3 : ℝ)])
          (2 / 2 + 0 % 2) := by
  have h := claim_C1_matrix 4 2 (fun f => f) [1] [2] [1] [2] [3] [4] 0 0
    (by decide) (by decide) (by decide) (by decide) (by decide)
    (by decide) (by decide)
  exact ⟨h.1.1, h.2.1⟩

/-- C4: before windowing, the Hilbert impulse response has, with
`center = overlap/2`, the value `2/(pi*i)` at `center+i` and `-2/(pi*i)` at
`center-i` for every odd `i` below `center`, is zero at every even offset
from the center, and is zero at every index at or beyond `overlap` (the
footprint is confined to `overlap` samples). -/
theorem claim_C4_impulse (ov i j : ℕ) :
    (i % 2 = 1 → i < ov / 2 →
      mkImpulse Real.pi ov (ov / 2 + i) = 2 / (Real.pi * (i : ℝ)) ∧
      mkImpulse Real.pi ov (ov / 2 - i) = -(2 / (Real.pi * (i : ℝ)))) ∧
    (j % 2 = ov / 2 % 2 → mkImpulse Real.pi ov j = 0) ∧
    (ov ≤ j → mkImpulse Real.pi ov j = 0) := by
  have key := impulseLoop_apply (K := ℝ) Real.pi (ov / 2) (ov / 2) 0
    (fun _ => 0)
  refine ⟨fun hodd hi => ⟨?_, ?_⟩, fun hpar => ?_, fun hout => ?_⟩
  · rw [mkImpulse, key _ (by omega), if_pos (by omega)]
    have e : ov / 2 + i - ov / 2 = i := by omega
    rw [e]
  · rw [mkImpulse, key _ (by omega), if_neg (by omega), if_pos (by omega)]
    have e : ov / 2 - (ov / 2 - i) = i := by omega
    rw [e]
  · rw [mkImpulse, key _ (by omega), if_neg (by omega), if_neg (by omega)]
  · rw [mkImpulse, key _ (by omega), if_neg (by omega), if_neg (by omega)]

/-- C4 witness: the impulse values at `overlap = 8` (`center = 4`). -/
theorem claim_C4_impulse_witness :
    mkImpulse Real.pi 8 5 = 2 / (Real.pi * ((1 : ℕ) : ℝ)) ∧
    mkImpulse Real.pi 8 3 = -(2 / (Real.pi * ((1 : ℕ) : ℝ))) ∧
    mkImpulse Real.pi 8 4 = 0 ∧
    mkImpulse Real.pi 8 9 = 0 := by
  have h1 := (claim_C4_impulse 8 1 4).1 (by decide) (by decide)
  have h2 := (claim_C4_impulse 8 1 4).2.1 (by decide)
  have h3 := (claim_C4_impulse 8 1 9).2.2 (by decide)
  exact ⟨h1.1, h1.2, h2, h3⟩

/-- C7: `ProcessBlock` hits its panic (modelled as `none`) exactly when the
input length differs from the block size; a correct-length input never
panics. -/
theorem claim_C7_panic (bs : ℕ) (F Finv : List (K × K) → List (K × K))
    (transferFn : List (K × K)) (x : List K) :
    processBlock bs F Finv transferFn x = none ↔ x.length ≠ bs := by
  rw [processBlock]
  split_ifs with h
  · simp [h]
  · simp [h]

/-- C7 witness: a wrong-length block panics, a correct-length block does
not. -/
theorem claim_C7_panic_witness :
    processBlock (K := ℚ) 4 id id [] [1, 2, 3] = none ∧
    processBlock (K := ℚ) 2 id id [] [1, 2] ≠ none := by
  constructor
  · exact (claim_C7_panic 4 id id [] [1, 2, 3]).mpr (by decide)
  · intro h
    exact absurd ((claim_C7_panic 2 id id [] [1, 2]).mp h) (by decide)

/-- C8: whenever the dominance ratio of the updated envelopes is at or below
the configured threshold, `applyLogicSteering` returns the four input
samples unmodified. -/
theorem claim_C8_bypass (sqrtK : K → K) (d : SteerState K) (lf rf lb rb : K)
    (hdom : (steerMax (updateEnvelopes d lf rf lb rb)).2 /
        steerSum (updateEnvelopes d lf rf lb rb) ≤
      d.logicConfig.DominanceThreshold) :
    (applyLogicSteering sqrtK d lf rf lb rb).2 = (lf, rf, lb, rb) := by
  simp only [applyLogicSteering]
  rw [if_pos hdom]

/-- C8 witness: a silent sample in a zero-envelope state is bypassed. -/
theorem claim_C8_bypass_witness :
    (applyLogicSteering (K := ℚ) id
      ⟨fun _ => 0, 1 / 2, 1 / 2, DefaultLogicSteeringConfig ℚ⟩ 0 0 0 0).2 =
      (0, 0, 0, 0) :=
  claim_C8_bypass id _ 0 0 0 0 (by
    norm_num [updateEnvelopes, steerEnergies, steerMax, steerSum, logicEpsilon,
      DefaultLogicSteeringConfig])

/-- C10: the state returned by `applyLogicSteering` always carries the four
envelopes updated by the asymmetric one-pole rule (attack coefficient when
the squared sample exceeds the envelope, release coefficient otherwise),
in every branch — including samples that are bypassed and returned
unmodified. -/
theorem claim_C10_envelopes (sqrtK : K → K) (d : SteerState K)
    (lf rf lb rb : K) (i : Fin 4) :
    (applyLogicSteering sqrtK d lf rf lb rb).1.logicEnv i =
      (if d.logicEnv i < steerEnergies lf rf lb rb i
       then d.attackCoeff * d.logicEnv i +
         (1 - d.attackCoeff) * steerEnergies lf rf lb rb i
       else d.releaseCoeff * d.logicEnv i +
         (1 - d.releaseCoeff) * steerEnergies lf rf lb rb i) := by
  have h : (applyLogicSteering sqrtK d lf rf lb rb).1 =
      { d with logicEnv := updateEnvelopes d lf rf lb rb } := by
    simp only [applyLogicSteering]
    split_ifs <;> rfl
  rw [h]
  rfl

/-- C2 (amended): for every configuration with `0 < overlap` and
`overlap + overlap/2 <= blockSize`, the decode Process realizes exactly the
spec's Block-Framer tiling: every output index `j < N` receives the value of
the unique hop `j / overlap` containing it (independently of the initial
output buffer, so each index is written rather than inherited), truncated
only at the true signal length.  The original claim, quantified over all
`0 < overlap <= blockSize`, fails: see the counterexample below. -/
theorem claim_C2_framing (c : ℝ) (bs ov : ℕ) (H : (ℕ → ℝ) → ℕ → ℝ)
    (L R : List ℝ) (out : Fin 4 → ℕ → ℝ) (ch : Fin 4) (j : ℕ)
    (hov : 0 < ov) (hbs : ov + ov / 2 ≤ bs) (hj : j < L.length) :
    decProcessFrom c bs ov H L R out ch j =
      framerSpecDecode c bs ov H L R ch j ∧
    decProcessCore c bs ov H L R ch j =
      framerSpecDecode c bs ov H L R ch j := by
  have h4 : ov / 4 ≤ ov / 2 := Nat.div_le_div_left (by norm_num) (by norm_num)
  have hmod : j % ov < ov := Nat.mod_lt _ hov
  have key : ∀ o : Fin 4 → ℕ → ℝ, decProcessFrom c bs ov H L R o ch j =
      framerSpecDecode c bs ov H L R ch j := by
    intro o
    rw [decProcessFrom_apply c bs ov H L R o ch j hov,
      if_pos ⟨hj, by omega, by omega⟩, framerSpecDecode, if_pos hj]
    rfl
  exact ⟨key out, key _⟩

/-- C2 counterexample: with `blockSize = overlap = 4` (allowed by the
claim's `0 < overlap <= blockSize`) and a one-hop signal of length 4, output
index 2 is never written — the `phaseIdx >= blockSize` break truncates the
hop after 2 samples — so the decoded front-left channel is 0 there while the
claimed tiling yields the direct input sample 1. -/
theorem claim_C2_counterexample :
    decProcessCore (Real.sqrt 2 / 2) 4 4 (fun f => f)
        [1, 1, 1, 1] [0, 0, 0, 0] 0 2 = 0 ∧
    framerSpecDecode (Real.sqrt 2 / 2) 4 4 (fun f => f)
        [1, 1, 1, 1] [0, 0, 0, 0] 0 2 = 1 := by
  constructor
  · rw [decProcessCore, decProcessFrom_apply _ _ _ _ _ _ _ _ _ (by norm_num),
      if_neg (by decide)]
  · rw [framerSpecDecode, if_pos (by decide)]
    rfl

/-- C3: at `blockSize = 1024`, `overlap = 512`, with the test signals
`LT[n] = A*sin(2*pi*n/97)` and `RT[n] = B*cos(2*pi*n/131)` over
`n < N = 10*overlap`, the decoded front channels are the exact input
samples shifted by `overlap/4`: `LF[n] = LT[n + 128]` and
`RF[n] = RT[n + 128]` for every `n < N - overlap/4`, for any content of the
Hilbert path. -/
theorem claim_C3_front (A B : ℝ) (H : (ℕ → ℝ) → ℕ → ℝ) (n : ℕ)
    (hn : n < 10 * 512 - 512 / 4) :
    decProcessCore (Real.sqrt 2 / 2) 1024 512 H
        (List.ofFn (fun i : Fin (10 * 512) =>
          A * Real.sin (2 * Real.pi * ((i : ℕ) : ℝ) / 97)))
        (List.ofFn (fun i : Fin (10 * 512) =>
          B * Real.cos (2 * Real.pi * ((i : ℕ) : ℝ) / 131)))
        0 n =
      A * Real.sin (2 * Real.pi * (((n + 512 / 4 : ℕ)) : ℝ) / 97) ∧
    decProcessCore (Real.sqrt 2 / 2) 1024 512 H
        (List.ofFn (fun i : Fin (10 * 512) =>
          A * Real.sin (2 * Real.pi * ((i : ℕ) : ℝ) / 97)))
        (List.ofFn (fun i : Fin (10 * 512) =>
          B * Real.cos (2 * Real.pi * ((i : ℕ) : ℝ) / 131)))
        1 n =
      B * Real.cos (2 * Real.pi * (((n + 512 / 4 : ℕ)) : ℝ) / 131) := by
  have hlen : (List.ofFn (fun i : Fin (10 * 512) =>
      A * Real.sin (2 * Real.pi * ((i : ℕ) : ℝ) / 97))).length = 10 * 512 :=
    List.length_ofFn _
  have hm : n % 512 < 512 := Nat.mod_lt _ (by norm_num)
  have hidx : n / 512 * 512 + (512 / 4 + n % 512) = n + 128 := by
    have h1 := Nat.div_add_mod n 512
    have h2 : 512 * (n / 512) = n / 512 * 512 := Nat.mul_comm _ _
    omega
  constructor
  · rw [decProcessCore, decProcessFrom_apply _ _ _ _ _ _ _ _ _ (by norm_num),
      if_pos ⟨by omega, by omega, by omega⟩]
    simp only [decValAt, decVal, if_true, hopBlock]
    simp only [hidx, hlen]
    rw [if_pos (by omega), if_pos (by omega),
      getD_ofFn _ _ _ (by omega : n + 128 < 10 * 512)]
  · rw [decProcessCore, decProcessFrom_apply _ _ _ _ _ _ _ _ _ (by norm_num),
      if_pos ⟨by omega, by omega, by omega⟩]
    simp only [decValAt, decVal, if_true, hopBlock]
    simp only [hidx, hlen]
    rw [if_neg (by decide : ¬ ((1 : Fin 4) = 0)), if_pos (by omega),
      if_pos (by omega), getD_ofFn _ _ _ (by omega : n + 128 < 10 * 512)]

/-- C3 witness: the passthrough identity at `n = 0` with unit amplitudes. -/
theorem claim_C3_front_witness :
    decProcessCore (Real.sqrt 2 / 2) 1024 512 (fun f => f)
        (List.ofFn (fun i : Fin (10 * 512) =>
          1 * Real.sin (2 * Real.pi * ((i : ℕ) : ℝ) / 97)))
        (List.ofFn (fun i : Fin (10 * 512) =>
          1 * Real.cos (2 * Real.pi * ((i : ℕ) : ℝ) / 131)))
        0 0 =
      1 * Real.sin (2 * Real.pi * (((0 + 512 / 4 : ℕ)) : ℝ) / 97) :=
  (claim_C3_front 1 1 (fun f => f) 0 (by decide)).1

/-- C5 counterexample: the claim quantifies over every finite envelope
state, but for the (negative) envelope state `(-1, -1, -1, -1)` with
coefficients `1/2` and silent input, the dominance denominator
`sum(env) + epsilon` computed by `applyLogicSteering` over the updated
envelopes is negative, not positive. -/
theorem claim_C5_counterexample :
    ¬ (0 < steerSum (updateEnvelopes
        (⟨fun _ => -1, 1 / 2, 1 / 2, DefaultLogicSteeringConfig ℝ⟩ :
          SteerState ℝ) 0 0 0 0)) := by
  have h : ∀ i : Fin 4, updateEnvelopes
      (⟨fun _ => -1, 1 / 2, 1 / 2, DefaultLogicSteeringConfig ℝ⟩ :
        SteerState ℝ) 0 0 0 0 i = -(1 / 2) := by
    intro i
    have he : steerEnergies (0 : ℝ) 0 0 0 i = 0 := by
      rw [steerEnergies]
      split_ifs <;> norm_num
    simp only [updateEnvelopes, he]
    norm_num
  rw [steerSum, h 0, h 1, h 2, h 3, logicEpsilon]
  norm_num

/-- C5 (amended): restricted to nonnegative envelope states (the only ones
the decoder can reach: envelopes start at zero and the one-pole update with
coefficients in `[0,1]` preserves nonnegativity), the steering stage is
well-defined everywhere: the updated envelopes stay nonnegative, the
dominance denominator `sum(env) + epsilon` is strictly positive, the
renormalization scale `sqrt(preEnergy/postEnergy)` is applied only when
both energy sums exceed `epsilon = 1e-12` (otherwise the output is either
the bypassed input or the unscaled gain-applied samples), and when it is
applied its argument `preEnergy/postEnergy` is strictly positive. -/
theorem claim_C5_guard (sqrtK : K → K) (d : SteerState K) (lf rf lb rb : K)
    (henv : ∀ i, 0 ≤ d.logicEnv i)
    (ha0 : 0 ≤ d.attackCoeff) (ha1 : d.attackCoeff ≤ 1)
    (hr0 : 0 ≤ d.releaseCoeff) (hr1 : d.releaseCoeff ≤ 1) :
    (∀ i, 0 ≤ updateEnvelopes d lf rf lb rb i) ∧
    0 < steerSum (updateEnvelopes d lf rf lb rb) ∧
    (¬ (logicEpsilon K < steerPreEnergy lf rf lb rb ∧
        logicEpsilon K < steerPostEnergy d lf rf lb rb) →
      (applyLogicSteering sqrtK d lf rf lb rb).2 = (lf, rf, lb, rb) ∨
      (applyLogicSteering sqrtK d lf rf lb rb).2 =
        steerGained d lf rf lb rb) ∧
    ((logicEpsilon K < steerPreEnergy lf rf lb rb ∧
        logicEpsilon K < steerPostEnergy d lf rf lb rb) →
      0 < steerPreEnergy lf rf lb rb / steerPostEnergy d lf rf lb rb ∧
      ((applyLogicSteering sqrtK d lf rf lb rb).2 = (lf, rf, lb, rb) ∨
       (applyLogicSteering sqrtK d lf rf lb rb).2 =
        ((steerGained d lf rf lb rb).1 *
            sqrtK (steerPreEnergy lf rf lb rb /
              steerPostEnergy d lf rf lb rb),
          (steerGained d lf rf lb rb).2.1 *
            sqrtK (steerPreEnergy lf rf lb rb /
              steerPostEnergy d lf rf lb rb),
          (steerGained d lf rf lb rb).2.2.1 *
            sqrtK (steerPreEnergy lf rf lb rb /
              steerPostEnergy d lf rf lb rb),
          (steerGained d lf rf lb rb).2.2.2 *
            sqrtK (steerPreEnergy lf rf lb rb /
              steerPostEnergy d lf rf lb rb)))) := by
  have heps : (0 : K) < logicEpsilon K := by
    rw [logicEpsilon]
    norm_num
  have henergy : ∀ i, 0 ≤ steerEnergies lf rf lb rb i := by
    intro i
    rw [steerEnergies]
    split_ifs <;> exact mul_self_nonneg _
  have hupd : ∀ i, 0 ≤ updateEnvelopes d lf rf lb rb i := by
    intro i
    simp only [updateEnvelopes]
    split_ifs
    · exact add_nonneg (mul_nonneg ha0 (henv i))
        (mul_nonneg (by linarith) (henergy i))
    · exact add_nonneg (mul_nonneg hr0 (henv i))
        (mul_nonneg (by linarith) (henergy i))
  refine ⟨hupd, ?_, ?_, ?_⟩
  · rw [steerSum]
    have h0 := hupd 0
    have h1 := hupd 1
    have h2 := hupd 2
    have h3 := hupd 3
    linarith
  · intro hguard
    simp only [applyLogicSteering]
    split_ifs with h1
    · exact Or.inl rfl
    · exact Or.inr rfl
  · intro hguard
    refine ⟨div_pos (lt_trans heps hguard.1) (lt_trans heps hguard.2), ?_⟩
    simp only [applyLogicSteering]
    split_ifs with h1
    · exact Or.inl rfl
    · exact Or.inr rfl

/-- C2 witness: the tiling identity at a concrete in-range configuration. -/
theorem claim_C2_framing_witness :
    decProcessFrom (0 : ℝ) 4 2 (fun f => f) [5] [7] (fun _ _ => 3) 0 0 =
      framerSpecDecode (0 : ℝ) 4 2 (fun f => f) [5] [7] 0 0 ∧
    decProcessCore (0 : ℝ) 4 2 (fun f => f) [5] [7] 0 0 =
      framerSpecDecode (0 : ℝ) 4 2 (fun f => f) [5] [7] 0 0 :=
  claim_C2_framing 0 4 2 (fun f => f) [5] [7] (fun _ _ => 3) 0 0
    (by decide) (by decide) (by decide)

/-- C5 witness: the amended guard statement at a concrete nonnegative state
and input. -/
theorem claim_C5_guard_witness :
    (∀ i, (0 : ℚ) ≤ updateEnvelopes
        ⟨fun _ => 0, 1 / 2, 1 / 2, DefaultLogicSteeringConfig ℚ⟩ 1 0 0 0 i) ∧
    0 < steerSum (updateEnvelopes
        ⟨fun _ => 0, 1 / 2, 1 / 2, DefaultLogicSteeringConfig ℚ⟩ 1 0 0 0) ∧
    (¬ (logicEpsilon ℚ < steerPreEnergy 1 0 0 0 ∧
        logicEpsilon ℚ < steerPostEnergy
          ⟨fun _ => 0, 1 / 2, 1 / 2, DefaultLogicSteeringConfig ℚ⟩ 1 0 0 0) →
      (applyLogicSteering id
        ⟨fun _ => 0, 1 / 2, 1 / 2, DefaultLogicSteeringConfig ℚ⟩ 1 0 0 0).2 =
        (1, 0, 0, 0) ∨
      (applyLogicSteering id
        ⟨fun _ => 0, 1 / 2, 1 / 2, DefaultLogicSteeringConfig ℚ⟩ 1 0 0 0).2 =
        steerGained ⟨fun _ => 0, 1 / 2, 1 / 2, DefaultLogicSteeringConfig ℚ⟩
          1 0 0 0) ∧
    ((logicEpsilon ℚ < steerPreEnergy 1 0 0 0 ∧
        logicEpsilon ℚ < steerPostEnergy
          ⟨fun _ => 0, 1 / 2, 1 / 2, DefaultLogicSteeringConfig ℚ⟩ 1 0 0 0) →
      0 < steerPreEnergy (1 : ℚ) 0 0 0 / steerPostEnergy
          ⟨fun _ => 0, 1 / 2, 1 / 2, DefaultLogicSteeringConfig ℚ⟩ 1 0 0 0 ∧
      ((applyLogicSteering id
          ⟨fun _ => 0, 1 / 2, 1 / 2, DefaultLogicSteeringConfig ℚ⟩
          1 0 0 0).2 = (1, 0, 0, 0) ∨
       (applyLogicSteering id
          ⟨fun _ => 0, 1 / 2, 1 / 2, DefaultLogicSteeringConfig ℚ⟩
          1 0 0 0).2 =
        ((steerGained ⟨fun _ => 0, 1 / 2, 1 / 2, DefaultLogicSteeringConfig ℚ⟩
            1 0 0 0).1 *
          id (steerPreEnergy (1 : ℚ) 0 0 0 / steerPostEnergy
            ⟨fun _ => 0, 1 / 2, 1 / 2, DefaultLogicSteeringConfig ℚ⟩ 1 0 0 0),
         (steerGained ⟨fun _ => 0, 1 / 2, 1 / 2, DefaultLogicSteeringConfig ℚ⟩
            1 0 0 0).2.1 *
          id (steerPreEnergy (1 : ℚ) 0 0 0 / steerPostEnergy
            ⟨fun _ => 0, 1 / 2, 1 / 2, DefaultLogicSteeringConfig ℚ⟩ 1 0 0 0),
         (steerGained ⟨fun _ => 0, 1 / 2, 1 / 2, DefaultLogicSteeringConfig ℚ⟩
            1 0 0 0).2.2.1 *
          id (steerPreEnergy (1 : ℚ) 0 0 0 / steerPostEnergy
            ⟨fun _ => 0, 1 / 2, 1 / 2, DefaultLogicSteeringConfig ℚ⟩ 1 0 0 0),
         (steerGained ⟨fun _ => 0, 1 / 2, 1 / 2, DefaultLogicSteeringConfig ℚ⟩
            1 0 0 0).2.2.2 *
          id (steerPreEnergy (1 : ℚ) 0 0 0 / steerPostEnergy
            ⟨fun _ => 0, 1 / 2, 1 / 2, DefaultLogicSteeringConfig ℚ⟩
            1 0 0 0)))) :=
  claim_C5_guard id _ 1 0 0 0 (fun _ => le_refl 0) (by norm_num)
    (by norm_num) (by norm_num) (by norm_num)

/-- C6: decoder `Process` errors exactly on wrong channel count or unequal
channel lengths (2 channels expected), encoder `Process` likewise with 4
channels; an error is returned exactly when the output is nil, so no
partial output is ever produced and valid inputs never error. -/
theorem claim_C6_validation (c : ℝ) (bs ov : ℕ) (H : (ℕ → ℝ) → ℕ → ℝ)
    (din encIn : List (List ℝ)) :
    ((decProcess c bs ov H din).2 = none ↔
      din.length = 2 ∧
        (din.getD 1 []).length = (din.getD 0 []).length) ∧
    ((decProcess c bs ov H din).1 = none ↔
      ¬ (decProcess c bs ov H din).2 = none) ∧
    ((encProcess c bs ov H encIn).2 = none ↔
      encIn.length = 4 ∧
        ((encIn.getD 1 []).length = (encIn.getD 0 []).length ∧
         (encIn.getD 2 []).length = (encIn.getD 0 []).length ∧
         (encIn.getD 3 []).length = (encIn.getD 0 []).length)) ∧
    ((encProcess c bs ov H encIn).1 = none ↔
      ¬ (encProcess c bs ov H encIn).2 = none) := by
  refine ⟨?_, ?_, ?_, ?_⟩
  · rw [decProcess]
    split_ifs with h1 h2 <;> simp_all
  · rw [decProcess]
    split_ifs <;> simp
  · rw [encProcess]
    split_ifs with h1 h2 <;> simp_all [not_or] <;> tauto
  · rw [encProcess]
    split_ifs <;> simp

/-- C6 witness: concrete invalid and valid inputs. -/
theorem claim_C6_validation_witness :
    (decProcess (0 : ℝ) 1024 512 (fun f => f) [[1], [1, 2]]).2 ≠ none ∧
    (decProcess (0 : ℝ) 1024 512 (fun f => f) [[1], [2]]).2 = none ∧
    (encProcess (0 : ℝ) 1024 512 (fun f => f) [[1]]).2 ≠ none := by
  have h1 := claim_C6_validation 0 1024 512 (fun f => f) [[1], [1, 2]] [[1]]
  have h2 := claim_C6_validation 0 1024 512 (fun f => f) [[1], [2]] [[1]]
  refine ⟨fun hn => ?_, ?_, fun hn => ?_⟩
  · have := h1.1.mp hn
    simp at this
  · exact h2.1.mpr ⟨rfl, rfl⟩
  · have := h1.2.2.1.mp hn
    simp at this

/-- C9: `separationDB` returns `20*log10(target/leak)` when both RMS values
exceed the fixed epsilon, plus infinity when only the target does, and `0`
when both are at or below epsilon; and on the decoded buffer with channel 0
samples `(1, -1)` and channel 1 samples `(0.1, -0.1)`,
`ChannelSeparation` at target 0 yields target RMS exactly 1, leak RMS
exactly `0.1`, and separation exactly `20` dB. -/
theorem claim_C9_separation (t l : ℝ) :
    (separationEpsilon ℝ < t ∧ separationEpsilon ℝ < l →
      separationDB (fun x => Real.logb 10 x) t l =
        ((20 * Real.logb 10 (t / l) : ℝ) : WithTop ℝ)) ∧
    (separationEpsilon ℝ < t ∧ l ≤ separationEpsilon ℝ →
      separationDB (fun x => Real.logb 10 x) t l = ⊤) ∧
    (t ≤ separationEpsilon ℝ ∧ l ≤ separationEpsilon ℝ →
      separationDB (fun x => Real.logb 10 x) t l = ((0 : ℝ) : WithTop ℝ)) ∧
    ((ChannelSeparation Real.sqrt (fun x => Real.logb 10 x) (fun _ _ => 0)
        [[1, -1], [1 / 10, -(1 / 10)]] 0
        ⟨LeakMode.max, 0, 0, 0⟩).TargetRMS = 1 ∧
     (ChannelSeparation Real.sqrt (fun x => Real.logb 10 x) (fun _ _ => 0)
        [[1, -1], [1 / 10, -(1 / 10)]] 0
        ⟨LeakMode.max, 0, 0, 0⟩).LeakRMS = 1 / 10 ∧
     (ChannelSeparation Real.sqrt (fun x => Real.logb 10 x) (fun _ _ => 0)
        [[1, -1], [1 / 10, -(1 / 10)]] 0
        ⟨LeakMode.max, 0, 0, 0⟩).SeparationDB = ((20 : ℝ) : WithTop ℝ)) := by
  have hrt : rms Real.sqrt [(1 : ℝ), -1] = 1 := by
    rw [rms, if_neg (by simp)]
    norm_num [List.foldl]
  have hrl : rms Real.sqrt [(1 : ℝ) / 10, -(1 / 10)] = 1 / 10 := by
    rw [rms, if_neg (by simp)]
    have h : (List.foldl (fun acc v => acc + v * v) 0
        [(1 : ℝ) / 10, -(1 / 10)]) / (([(1 : ℝ) / 10, -(1 / 10)].length) : ℝ)
        = (1 / 10) ^ 2 := by
      norm_num [List.foldl]
    rw [h, Real.sqrt_sq (by norm_num)]
  have hstep0 : leakStep Real.sqrt (fun _ _ => 0)
      [[(1 : ℝ), -1], [1 / 10, -(1 / 10)]] 0 ⟨LeakMode.max, 0, 0, 0⟩
      (0, 0) 0 = (0, 0) := by
    rw [leakStep, if_pos rfl]
  have hstep1 : leakStep Real.sqrt (fun _ _ => 0)
      [[(1 : ℝ), -1], [1 / 10, -(1 / 10)]] 0 ⟨LeakMode.max, 0, 0, 0⟩
      (0, 0) 1 = (1 / 10, 0) := by
    rw [leakStep, if_neg (by decide)]
    simp only [rmsWithOptions, List.getD_cons_succ, List.getD_cons_zero,
      le_refl, and_self, if_true]
    rw [hrl, if_pos (by norm_num)]
  have hchan : ChannelSeparation Real.sqrt (fun x => Real.logb 10 x)
      (fun _ _ => 0) [[1, -1], [1 / 10, -(1 / 10)]] 0
      ⟨LeakMode.max, 0, 0, 0⟩ =
      ⟨1, 1 / 10, separationDB (fun x => Real.logb 10 x) 1 (1 / 10)⟩ := by
    rw [ChannelSeparation, if_neg (by simp)]
    simp only [List.length_cons, List.length_nil]
    rw [show List.range 2 = [0, 1] from rfl, List.foldl_cons, List.foldl_cons,
      List.foldl_nil, hstep0, hstep1]
    simp only [List.getD_cons_zero]
    rw [if_neg (by decide)]
    simp only [rmsWithOptions, List.getD_cons_zero, le_refl, and_self,
      if_true]
    rw [hrt]
  refine ⟨fun h => ?_, fun h => ?_, fun h => ?_, ?_⟩
  · rw [separationDB, if_pos ⟨h.2, h.1⟩]
  · rw [separationDB, if_neg (fun hc => absurd hc.1 (not_lt.mpr h.2)),
      if_pos ⟨h.1, h.2⟩]
  · rw [separationDB, if_neg (fun hc => absurd hc.2 (not_lt.mpr h.1)),
      if_neg (fun hc => absurd hc.1 (not_lt.mpr h.1))]
  · rw [hchan]
    refine ⟨rfl, rfl, ?_⟩
    show separationDB (fun x => Real.logb 10 x) 1 (1 / 10) = _
    rw [separationDB, if_pos (by constructor <;> · rw [separationEpsilon]; norm_num)]
    norm_num [Real.logb_self_eq_one]

/-- C9 witness: the finite branch of `separationDB` at a concrete pair. -/
theorem claim_C9_separation_witness :
    separationDB (fun x => Real.logb 10 x) (1 : ℝ) (1 / 10) =
      ((20 * Real.logb 10 ((1 : ℝ) / (1 / 10)) : ℝ) : WithTop ℝ) :=
  (claim_C9_separation 1 (1 / 10)).1
    ⟨by rw [separationEpsilon]; norm_num, by rw [separationEpsilon]; norm_num⟩
